import Mathlib

/-!
RTP header-extension negotiation (`webrtc/media/engine/webrtcmediaengine.cc`)

A shallow embedding of `ValidateRtpExtensions`, `DiscardRedundantExtensions` and
`FilterRtpExtensions`, together with the properties of the negotiated extension list.

Modelling conventions.

* `std::string` is `String`; `operator<` is the lexicographic order `stringLt`, `operator==` is
  equality.
* `int` is `Int`. The only arithmetic is `extension.id - 1`, evaluated after the range check
  `extension.id <= 0 || extension.id >= 15`, so no overflow can occur.
* `std::vector` is `List`; an iterator is an index, `end()` is the length.
* The C array `bool id_used[14]` is a `List Bool`; a read or write outside the array makes the
  model return `none`.
* `std::sort` is a parameter of `FilterRtpExtensions`. The C++ standard fixes its result only up
  to the order of equivalent elements: the result is a permutation of the input in which no
  element compares less than an earlier one (`StdSortSpec`). Theorems are stated for every
  function that meets this contract. `insertionSortBy` is such a function; it keeps equivalent
  elements in their original order, as does the insertion sort that libstdc++ runs for
  `std::sort` on a range of at most 16 elements (`__insertion_sort` in `bits/stl_algo.h`; a list
  accepted by `ValidateRtpExtensions` has at most 14 entries).
* `RTC_DCHECK(ValidateRtpExtensions(extensions))` is a precondition of `FilterRtpExtensions`; it
  appears as a hypothesis of the theorems.
* Of `webrtc::internal::VideoSendStream` only the header is at hand; the bitrate state and the
  two member functions that touch it are modelled from the specification.
-/

namespace cricket

/-! ## Data model -/

/-- The requested header extension, `cricket::RtpHeaderExtension`. -/
structure RtpHeaderExtension where
  uri : String
  id : Int
  deriving DecidableEq, Repr

/-- The negotiated header extension, `webrtc::RtpExtension`, built as `{extension.uri, extension.id}`. -/
structure RtpExtension where
  name : String
  id : Int
  deriving DecidableEq, Repr

/-- Modelled from the spec: the value of the constant `kRtpTransportSequenceNumberHeaderExtension`,
declared outside the given sources; the spec names it transport-wide-sequence-number. -/
def kRtpTransportSequenceNumberHeaderExtension : String := "transport-wide-sequence-number"

/-- Modelled from the spec: the value of the constant `kRtpAbsoluteSenderTimeHeaderExtension`,
declared outside the given sources; the spec names it absolute-send-time. -/
def kRtpAbsoluteSenderTimeHeaderExtension : String := "absolute-send-time"

/-- Modelled from the spec: the value of the constant `kRtpTimestampOffsetHeaderExtension`,
declared outside the given sources; the spec names it timestamp-offset. -/
def kRtpTimestampOffsetHeaderExtension : String := "timestamp-offset"

/-- The table `kBweExtensionPriorities` of `FilterRtpExtensions`, highest priority first. -/
def kBweExtensionPriorities : List String :=
  [kRtpTransportSequenceNumberHeaderExtension,
   kRtpAbsoluteSenderTimeHeaderExtension,
   kRtpTimestampOffsetHeaderExtension]

/-- Lexicographic comparison of two character sequences, characters compared by their code. -/
def lexLt : List Char → List Char → Bool
  | _, [] => false
  | [], _ :: _ => true
  | a :: as, b :: bs =>
    if a.toNat < b.toNat then true
    else if b.toNat < a.toNat then false
    else lexLt as bs

/-- The `operator<` of `std::string`. -/
def stringLt (a b : String) : Bool := lexLt a.data b.data

/-! ## `ValidateRtpExtensions` -/

/-- Read of `a[i]` for a C array of `bool`; `none` when the index is outside the array. -/
def arrayRead (a : List Bool) (i : Int) : Option Bool :=
  if 0 ≤ i then a[i.toNat]? else none

/-- Write `a[i] = v` for a C array of `bool`; `none` when the index is outside the array. -/
def arrayWrite (a : List Bool) (i : Int) (v : Bool) : Option (List Bool) :=
  if 0 ≤ i ∧ i.toNat < a.length then some (a.set i.toNat v) else none

/-- The `for` loop of `ValidateRtpExtensions`, started with the table `id_used`. -/
def validateLoop : List Bool → List RtpHeaderExtension → Option Bool
  | _, [] => some true
  | id_used, extension :: rest =>
    if extension.id ≤ 0 ∨ extension.id ≥ 15 then some false
    else
      match arrayRead id_used (extension.id - 1) with
      | none => none
      | some true => some false
      | some false =>
        match arrayWrite id_used (extension.id - 1) true with
        | none => none
        | some id_used' => validateLoop id_used' rest

/-- The function `ValidateRtpExtensions`: `some b` is the returned boolean, `none` an
out-of-bounds access to `id_used`. -/
def ValidateRtpExtensions (extensions : List RtpHeaderExtension) : Option Bool :=
  validateLoop (List.replicate 14 false) extensions

/-! ## Standard algorithms used by `FilterRtpExtensions` -/

/-- The type of `std::sort` on a vector of `webrtc::RtpExtension` with a comparator. -/
abbrev StdSort := (RtpExtension → RtpExtension → Bool) → List RtpExtension → List RtpExtension

/-- The requirement of `std::sort` on its comparator: a strict weak ordering. -/
def StrictWeakOrdering (comp : RtpExtension → RtpExtension → Bool) : Prop :=
  (∀ a, comp a a = false) ∧
  (∀ a b c, comp a b = true → comp b c = true → comp a c = true) ∧
  (∀ a b c, comp a b = false → comp b a = false → comp b c = false → comp c b = false →
    comp a c = false ∧ comp c a = false)

/-- The contract of `std::sort`: for a strict weak ordering, the result is a permutation of the
input and no element compares less than an element before it. Nothing is promised about the
relative order of equivalent elements. -/
def StdSortSpec (sort : StdSort) : Prop :=
  ∀ comp, StrictWeakOrdering comp → ∀ l,
    (sort comp l).Perm l ∧ (sort comp l).Pairwise (fun a b => comp b a = false)

/-- Insertion of `a` before the first element that does not compare less than `a`. -/
def insertBy (comp : RtpExtension → RtpExtension → Bool) (a : RtpExtension) :
    List RtpExtension → List RtpExtension
  | [] => [a]
  | b :: l => if comp b a then b :: insertBy comp a l else a :: b :: l

/-- Insertion sort: an implementation of the `std::sort` contract that keeps equivalent elements
in their original order. On a range of at most 16 elements the `std::sort` of libstdc++ is an
insertion sort that moves an element only past strictly greater ones, with the same result. -/
def insertionSortBy : StdSort
  | _, [] => []
  | comp, a :: l => insertBy comp a (insertionSortBy comp l)

/-- The loop of `std::unique`: `dest` is the last element kept, the list is what remains to be
read; an element is dropped when `pred dest x` holds. -/
def uniqueLoop (pred : RtpExtension → RtpExtension → Bool) :
    RtpExtension → List RtpExtension → List RtpExtension
  | _, [] => []
  | dest, x :: rest =>
    if pred dest x then uniqueLoop pred dest rest else x :: uniqueLoop pred x rest

/-- The range kept by `std::unique` followed by `erase(it, end())`: all but the first element
of every run of consecutive elements related by `pred`. -/
def stdUnique (pred : RtpExtension → RtpExtension → Bool) : List RtpExtension → List RtpExtension
  | [] => []
  | a :: l => a :: uniqueLoop pred a l

/-! ## `DiscardRedundantExtensions` and `FilterRtpExtensions` -/

/-- The `for` loop of `DiscardRedundantExtensions` over the remaining names, with the current
vector and the flag `found`. `List.findIdx` is `std::find_if` (the length stands for `end()`),
`List.eraseIdx` is `erase(it)`. -/
def discardLoop : List String → List RtpExtension → Bool → List RtpExtension
  | [], extensions, _ => extensions
  | name :: rest, extensions, found =>
    let it := extensions.findIdx (fun rhs => rhs.name == name)
    if it ≠ extensions.length then
      discardLoop rest (if found then extensions.eraseIdx it else extensions) true
    else
      discardLoop rest extensions found

/-- The function `DiscardRedundantExtensions`: the vector after the call. -/
def DiscardRedundantExtensions (extensions : List RtpExtension)
    (extensions_decreasing_prio : List String) : List RtpExtension :=
  discardLoop extensions_decreasing_prio extensions false

/-- The comparator passed to `std::sort`: `rhs.name < lhs.name`. -/
def sortComp (rhs lhs : RtpExtension) : Bool := stringLt rhs.name lhs.name

/-- The predicate passed to `std::unique`: `rhs.name == lhs.name`. -/
def uniquePred (rhs lhs : RtpExtension) : Bool := rhs.name == lhs.name

/-- The first loop of `FilterRtpExtensions`: the supported entries, in input order. -/
def supportedExtensions (extensions : List RtpHeaderExtension) (supported : String → Bool) :
    List RtpExtension :=
  (extensions.filter (fun extension => supported extension.uri)).map
    (fun extension => { name := extension.uri, id := extension.id })

/-- The function `FilterRtpExtensions`, with the implementation of `std::sort` as first
argument. -/
def FilterRtpExtensions (sort : StdSort) (extensions : List RtpHeaderExtension)
    (supported : String → Bool) (filter_redundant_extensions : Bool) : List RtpExtension :=
  let result := sort sortComp (supportedExtensions extensions supported)
  if filter_redundant_extensions then
    DiscardRedundantExtensions (stdUnique uniquePred result) kBweExtensionPriorities
  else
    result

/-- Whether some entry of `l` has the name `n`. -/
def hasName (l : List RtpExtension) (n : String) : Bool := l.any (fun e => e.name == n)

/-- The names whose entries survive `discardLoop prio l found`: a name outside `prio`, or, when
nothing was found before, the first name of `prio` that occurs in `l`. -/
def keptName (prio : List String) (l : List RtpExtension) (found : Bool) (n : String) : Bool :=
  decide (n ∉ prio ∨ (found = false ∧ prio.find? (hasName l) = some n))

/-- A negotiated entry read back as a request: `{name, id}` as `{uri, id}`. -/
def toRequest (e : RtpExtension) : RtpHeaderExtension := { uri := e.name, id := e.id }

end cricket

namespace webrtc.internal

/-! ## The bitrate state of `VideoSendStream` (`webrtc/video/video_send_stream.h`) -/

/-- Modelled from the spec: the BitrateState `{targetBps, fractionLoss, rttMs}` written by
`OnBitrateUpdated`; the members that hold it and the bodies of the member functions of
`VideoSendStream` are outside the given sources. -/
structure BitrateState where
  targetBps : Nat
  fractionLoss : Nat
  rttMs : Int
  deriving DecidableEq, Repr

/-- The struct `VideoSendStream::EncoderSettings` of the header; the member `video_codec` plays
no role in the padding computation and is left out. -/
structure EncoderSettings where
  min_transmit_bitrate_bps : Int
  deriving DecidableEq, Repr

/-- Modelled from the spec: the state of the stream read by `GetPaddingNeededBps`, the latest
BitrateState and the active encoder settings. -/
structure VideoSendStream where
  bitrate : BitrateState
  active : EncoderSettings
  deriving DecidableEq, Repr

/-- Modelled from the spec: the body of `VideoSendStream::OnBitrateUpdated`, which is outside
the given sources; it replaces the BitrateState as a whole and leaves the active encoder
settings alone. -/
def VideoSendStream.OnBitrateUpdated (s : VideoSendStream) (bitrate_bps : Nat)
    (fraction_loss : Nat) (rtt : Int) : VideoSendStream :=
  { s with bitrate := { targetBps := bitrate_bps, fractionLoss := fraction_loss, rttMs := rtt } }

/-- Modelled from the spec: the body of `VideoSendStream::GetPaddingNeededBps`, which is outside
the given sources; the spec gives `max(0, minTransmitBitrateBps - targetBps)`. -/
def VideoSendStream.GetPaddingNeededBps (s : VideoSendStream) : Int :=
  max 0 (s.active.min_transmit_bitrate_bps - s.bitrate.targetBps)

end webrtc.internal

namespace cricket

/-! ## The string order -/

theorem charToNat_inj {a b : Char} (h : a.toNat = b.toNat) : a = b := by
  apply Char.ext
  cases' a with av ah
  cases' b with bv bh
  simp only [Char.toNat] at h
  cases' av with f
  cases' bv with g
  simp only [UInt32.toNat] at h
  exact congrArg UInt32.mk (BitVec.eq_of_toNat_eq h)

theorem lexLt_irrefl : ∀ a : List Char, lexLt a a = false
  | [] => rfl
  | a :: as => by simp [lexLt, lexLt_irrefl as]

theorem lexLt_trans : ∀ a b c : List Char, lexLt a b = true → lexLt b c = true → lexLt a c = true
  | _, _, [] => by intro _ h; cases ‹List Char› <;> simp [lexLt] at h
  | _, [], _ :: _ => by intro h; simp [lexLt] at h
  | [], _ :: _, _ :: _ => by intros; simp [lexLt]
  | a :: as, b :: bs, c :: cs => by
    intro h1 h2
    simp only [lexLt] at h1 h2 ⊢
    split_ifs at h1 h2 ⊢ <;> first | rfl | omega | exact lexLt_trans as bs cs h1 h2

theorem lexLt_connected : ∀ a b : List Char, lexLt a b = false → lexLt b a = false → a = b
  | [], [] => by intros; rfl
  | [], _ :: _ => by intro h; simp [lexLt] at h
  | _ :: _, [] => by intro _ h; simp [lexLt] at h
  | a :: as, b :: bs => by
    intro h1 h2
    simp only [lexLt] at h1 h2
    split_ifs at h1 h2
    have hab : a = b := charToNat_inj (by omega)
    rw [hab, lexLt_connected as bs h1 h2]

theorem stringLt_irrefl (a : String) : stringLt a a = false := lexLt_irrefl _

theorem stringLt_trans {a b c : String} (h1 : stringLt a b = true) (h2 : stringLt b c = true) :
    stringLt a c = true := lexLt_trans _ _ _ h1 h2

theorem stringLt_connected {a b : String} (h1 : stringLt a b = false)
    (h2 : stringLt b a = false) : a = b :=
  String.ext (lexLt_connected _ _ h1 h2)

theorem stringLt_asymm {a b : String} (h : stringLt a b = true) : stringLt b a = false := by
  by_contra h'
  have := stringLt_trans h (by simpa using h')
  simp [stringLt_irrefl] at this

/-! ## `ValidateRtpExtensions` -/

theorem validateLoop_step (u : List Bool) (hu : u.length = 14) (e : RtpHeaderExtension)
    (rest : List RtpHeaderExtension) (h1 : 1 ≤ e.id) (h2 : e.id ≤ 14) :
    validateLoop u (e :: rest) =
      if u[(e.id - 1).toNat]? = some false
      then validateLoop (u.set (e.id - 1).toNat true) rest else some false := by
  have hi : (e.id - 1).toNat < u.length := by omega
  have hr : ¬ (e.id ≤ 0 ∨ e.id ≥ 15) := by omega
  have h0 : (0 : Int) ≤ e.id - 1 := by omega
  simp only [validateLoop, hr, if_false, arrayRead, arrayWrite, h0, hi, if_true, and_self]
  rw [List.getElem?_eq_getElem hi]
  cases u[(e.id - 1).toNat] <;> simp

theorem validateLoop_ne_none : ∀ (l : List RtpHeaderExtension) (u : List Bool),
    u.length = 14 → validateLoop u l ≠ none
  | [], _, _ => by simp [validateLoop]
  | e :: rest, u, hu => by
    by_cases hr : e.id ≤ 0 ∨ e.id ≥ 15
    · simp [validateLoop, hr]
    · rw [validateLoop_step u hu e rest (by omega) (by omega)]
      split_ifs
      · exact validateLoop_ne_none rest _ (by simpa using hu)
      · simp

theorem validateLoop_eq_true_iff : ∀ (l : List RtpHeaderExtension) (u : List Bool),
    u.length = 14 →
    (validateLoop u l = some true ↔
      (∀ e ∈ l, 1 ≤ e.id ∧ e.id ≤ 14 ∧ u[(e.id - 1).toNat]? = some false) ∧
        (l.map (fun e => e.id)).Nodup)
  | [], _, _ => by simp [validateLoop]
  | e :: rest, u, hu => by
    by_cases hr : e.id ≤ 0 ∨ e.id ≥ 15
    · have : ¬ (1 ≤ e.id ∧ e.id ≤ 14 ∧ u[(e.id - 1).toNat]? = some false) := by omega
      rw [validateLoop, if_pos hr]
      constructor
      · intro h
        cases h
      · rintro ⟨h, _⟩
        exact absurd (h e (List.mem_cons_self _ _)) this
    · rw [validateLoop_step u hu e rest (by omega) (by omega)]
      by_cases hb : u[(e.id - 1).toNat]? = some false
      · rw [if_pos hb, validateLoop_eq_true_iff rest _ (by simpa using hu)]
        have hi : (e.id - 1).toNat < u.length := by omega
        simp only [List.mem_cons, forall_eq_or_imp, List.map_cons, List.nodup_cons, List.mem_map,
          not_exists, not_and, List.getElem?_set, hi, if_true]
        constructor
        · rintro ⟨h, hn⟩
          refine ⟨⟨⟨by omega, by omega, hb⟩, fun x hx => ?_⟩, fun x hx hxe => ?_, hn⟩
          · obtain ⟨a, b, c⟩ := h x hx
            refine ⟨a, b, ?_⟩
            split_ifs at c with hc
            · simp at c
            · exact c
          · obtain ⟨a, b, c⟩ := h x hx
            rw [hxe] at c
            simp at c
        · rintro ⟨⟨_, h⟩, hne, hn⟩
          refine ⟨fun x hx => ?_, hn⟩
          obtain ⟨a, b, c⟩ := h x hx
          refine ⟨a, b, ?_⟩
          have : (e.id - 1).toNat ≠ (x.id - 1).toNat := by
            intro heq
            exact hne x hx (by omega)
          rw [if_neg this]
          exact c
      · rw [if_neg hb]
        constructor
        · intro h
          cases h
        · rintro ⟨h, _⟩
          exact absurd (h e (List.mem_cons_self _ _)).2.2 hb

theorem ValidateRtpExtensions_ne_none (l : List RtpHeaderExtension) :
    ValidateRtpExtensions l ≠ none :=
  validateLoop_ne_none l _ (by simp)

theorem ValidateRtpExtensions_eq_true_iff (l : List RtpHeaderExtension) :
    ValidateRtpExtensions l = some true ↔
      (∀ e ∈ l, 1 ≤ e.id ∧ e.id ≤ 14) ∧ (l.map (fun e => e.id)).Nodup := by
  unfold ValidateRtpExtensions
  rw [validateLoop_eq_true_iff l _ (by simp)]
  refine and_congr_left fun _ => forall₂_congr fun e _ => ?_
  constructor
  · rintro ⟨a, b, _⟩
    exact ⟨a, b⟩
  · rintro ⟨a, b⟩
    refine ⟨a, b, ?_⟩
    have : (e.id - 1).toNat < 14 := by omega
    rw [List.getElem?_replicate, if_pos this]

theorem ValidateRtpExtensions_eq_false_iff (l : List RtpHeaderExtension) :
    ValidateRtpExtensions l = some false ↔
      (∃ e ∈ l, e.id < 1 ∨ 14 < e.id) ∨ ¬ (l.map (fun e => e.id)).Nodup := by
  have h1 := ValidateRtpExtensions_ne_none l
  have h2 := ValidateRtpExtensions_eq_true_iff l
  have h3 : ValidateRtpExtensions l = some false ↔ ¬ ValidateRtpExtensions l = some true := by
    rcases h : ValidateRtpExtensions l with _ | _ | _ <;> simp_all
  rw [h3, h2, not_and_or]
  refine or_congr_left ?_
  push_neg
  constructor
  · rintro ⟨e, he, h⟩
    exact ⟨e, he, by omega⟩
  · rintro ⟨e, he, h⟩
    exact ⟨e, he, by omega⟩

/-! ## Sorting -/

theorem sortComp_strictWeakOrdering : StrictWeakOrdering sortComp := by
  refine ⟨fun a => stringLt_irrefl _, fun a b c h1 h2 => stringLt_trans h1 h2, ?_⟩
  intro a b c h1 h2 h3 h4
  have hab : a.name = b.name := stringLt_connected h1 h2
  have hbc : b.name = c.name := stringLt_connected h3 h4
  simp only [sortComp, hab, hbc, stringLt_irrefl, and_self]

theorem StrictWeakOrdering.asymm {comp : RtpExtension → RtpExtension → Bool}
    (h : StrictWeakOrdering comp) {a b : RtpExtension} (hab : comp a b = true) :
    comp b a = false := by
  by_contra hba
  have := h.2.1 a b a hab (by simpa using hba)
  rw [h.1 a] at this
  cases this

theorem StrictWeakOrdering.negTrans {comp : RtpExtension → RtpExtension → Bool}
    (h : StrictWeakOrdering comp) {a b c : RtpExtension} (hab : comp a b = false)
    (hbc : comp b c = false) : comp a c = false := by
  by_contra hac
  have hac : comp a c = true := by simpa using hac
  have hba : comp b a = false := by
    by_contra hba
    have := h.2.1 b a c (by simpa using hba) hac
    rw [hbc] at this
    cases this
  have hcb : comp c b = false := by
    by_contra hcb
    have := h.2.1 a c b hac (by simpa using hcb)
    rw [hab] at this
    cases this
  have := (h.2.2 a b c hab hba hbc hcb).1
  rw [hac] at this
  cases this

theorem insertBy_perm (comp : RtpExtension → RtpExtension → Bool) (a : RtpExtension) :
    ∀ l, (insertBy comp a l).Perm (a :: l)
  | [] => List.Perm.refl _
  | b :: l => by
    unfold insertBy
    split_ifs
    · exact ((insertBy_perm comp a l).cons b).trans (List.Perm.swap a b l)
    · exact List.Perm.refl _

theorem insertBy_pairwise {comp : RtpExtension → RtpExtension → Bool}
    (h : StrictWeakOrdering comp) (a : RtpExtension) :
    ∀ l, l.Pairwise (fun x y => comp y x = false) →
      (insertBy comp a l).Pairwise (fun x y => comp y x = false)
  | [], _ => by simp [insertBy]
  | b :: l, hl => by
    rw [List.pairwise_cons] at hl
    unfold insertBy
    split_ifs with hba
    · refine List.pairwise_cons.2 ⟨fun z hz => ?_, insertBy_pairwise h a l hl.2⟩
      rcases List.mem_cons.1 ((insertBy_perm comp a l).mem_iff.1 hz) with rfl | hz
      · exact h.asymm hba
      · exact hl.1 z hz
    · have hba : comp b a = false := by simpa using hba
      refine List.pairwise_cons.2 ⟨fun z hz => ?_, List.pairwise_cons.2 hl⟩
      rcases List.mem_cons.1 hz with rfl | hz
      · exact hba
      · exact h.negTrans (hl.1 z hz) hba

theorem insertionSortBy_perm (comp : RtpExtension → RtpExtension → Bool) :
    ∀ l, (insertionSortBy comp l).Perm l
  | [] => List.Perm.refl _
  | a :: l => (insertBy_perm comp a _).trans ((insertionSortBy_perm comp l).cons a)

theorem insertionSortBy_pairwise {comp : RtpExtension → RtpExtension → Bool}
    (h : StrictWeakOrdering comp) :
    ∀ l, (insertionSortBy comp l).Pairwise (fun x y => comp y x = false)
  | [] => List.Pairwise.nil
  | a :: l => insertBy_pairwise h a _ (insertionSortBy_pairwise h l)

theorem insertionSortBy_spec : StdSortSpec insertionSortBy :=
  fun comp h l => ⟨insertionSortBy_perm comp l, insertionSortBy_pairwise h l⟩

/-- What the `std::sort` contract gives for the comparator of `FilterRtpExtensions`. -/
theorem StdSortSpec.forSortComp {sort : StdSort} (h : StdSortSpec sort) (l : List RtpExtension) :
    (sort sortComp l).Perm l ∧
      (sort sortComp l).Pairwise (fun a b => stringLt b.name a.name = false) :=
  h sortComp sortComp_strictWeakOrdering l

/-- A list sorted by name whose names are pairwise distinct is strictly increasing. -/
theorem pairwise_strict_of_nodup {l : List RtpExtension}
    (hs : l.Pairwise (fun a b => stringLt b.name a.name = false))
    (hn : (l.map (fun e => e.name)).Nodup) :
    l.Pairwise (fun a b => stringLt a.name b.name = true) := by
  rw [List.Nodup, List.pairwise_map] at hn
  refine (hs.and hn).imp ?_
  rintro a b ⟨h1, h2⟩
  by_contra h3
  exact h2 (stringLt_connected (by simpa using h3) h1)

theorem nodup_of_pairwise_strict {l : List RtpExtension}
    (hs : l.Pairwise (fun a b => stringLt a.name b.name = true)) :
    (l.map (fun e => e.name)).Nodup := by
  rw [List.Nodup, List.pairwise_map]
  refine hs.imp ?_
  intro a b h heq
  rw [heq, stringLt_irrefl] at h
  cases h

/-- Two strictly increasing lists with the same elements are equal. -/
theorem eq_of_perm_of_strict {l₁ l₂ : List RtpExtension} (hp : l₁.Perm l₂)
    (h₁ : l₁.Pairwise (fun a b => stringLt a.name b.name = true))
    (h₂ : l₂.Pairwise (fun a b => stringLt a.name b.name = true)) : l₁ = l₂ := by
  haveI : IsAntisymm RtpExtension (fun a b => stringLt a.name b.name = true) :=
    ⟨fun a b hab hba => by rw [stringLt_asymm hab] at hba; cases hba⟩
  exact List.eq_of_perm_of_sorted hp h₁ h₂

theorem uniqueLoop_sublist (pred : RtpExtension → RtpExtension → Bool) :
    ∀ (l : List RtpExtension) (dest : RtpExtension), (uniqueLoop pred dest l).Sublist l
  | [], _ => List.Sublist.slnil
  | x :: rest, dest => by
    unfold uniqueLoop
    split_ifs
    · exact (uniqueLoop_sublist pred rest dest).cons x
    · exact (uniqueLoop_sublist pred rest x).cons₂ x

theorem stdUnique_sublist (pred : RtpExtension → RtpExtension → Bool) :
    ∀ l : List RtpExtension, (stdUnique pred l).Sublist l
  | [] => List.Sublist.slnil
  | a :: l => (uniqueLoop_sublist pred l a).cons₂ a

/-- The first entry with a given name is kept by `std::unique`. -/
theorem uniqueLoop_find? (n : String) :
    ∀ (l : List RtpExtension) (dest : RtpExtension),
      (dest :: uniqueLoop uniquePred dest l).find? (fun e => e.name == n)
        = (dest :: l).find? (fun e => e.name == n)
  | [], _ => rfl
  | x :: rest, dest => by
    unfold uniqueLoop
    by_cases hd : dest.name = n
    · simp [List.find?_cons, hd]
    · have hdb : (dest.name == n) = false := by simpa using hd
      by_cases hp : uniquePred dest x = true
      · have hxb : (x.name == n) = false := by
          have : dest.name = x.name := by simpa [uniquePred] using hp
          rwa [← this]
        have ih := uniqueLoop_find? n rest dest
        simp only [List.find?_cons, hdb, hxb, hp, if_true] at ih ⊢
        exact ih
      · have ih := uniqueLoop_find? n rest x
        simp only [List.find?_cons, hdb, hp] at ih ⊢
        exact ih

theorem stdUnique_find? (n : String) :
    ∀ l : List RtpExtension,
      (stdUnique uniquePred l).find? (fun e => e.name == n) = l.find? (fun e => e.name == n)
  | [] => rfl
  | a :: l => uniqueLoop_find? n l a

/-- A name occurs after `std::unique` exactly when it occurred before. -/
theorem stdUnique_any (n : String) (l : List RtpExtension) :
    (stdUnique uniquePred l).any (fun e => e.name == n) = l.any (fun e => e.name == n) := by
  have h := stdUnique_find? n l
  rw [Bool.eq_iff_iff, List.any_eq_true, List.any_eq_true]
  rw [← List.find?_isSome, ← List.find?_isSome, h]

theorem uniqueLoop_strict :
    ∀ (l : List RtpExtension) (dest : RtpExtension),
      (∀ x ∈ l, stringLt x.name dest.name = false) →
      l.Pairwise (fun a b => stringLt b.name a.name = false) →
      (dest :: uniqueLoop uniquePred dest l).Pairwise (fun a b => stringLt a.name b.name = true)
  | [], _, _, _ => by simp [uniqueLoop]
  | x :: rest, dest, hd, hl => by
    rw [List.pairwise_cons] at hl
    unfold uniqueLoop
    by_cases hp : uniquePred dest x = true
    · rw [if_pos hp]
      exact uniqueLoop_strict rest dest (fun z hz => hd z (List.mem_cons_of_mem _ hz)) hl.2
    · rw [if_neg hp]
      have ih := uniqueLoop_strict rest x hl.1 hl.2
      have hdx : stringLt dest.name x.name = true := by
        by_contra h
        have : dest.name = x.name :=
          stringLt_connected (by simpa using h) (hd x (List.mem_cons_self _ _))
        exact hp (by simp [uniquePred, this])
      refine List.pairwise_cons.2 ⟨fun z hz => ?_, ih⟩
      rcases List.mem_cons.1 hz with rfl | hz
      · exact hdx
      · exact stringLt_trans hdx ((List.pairwise_cons.1 ih).1 z hz)

/-- After `std::unique`, a list sorted by name is strictly increasing by name. -/
theorem stdUnique_strict :
    ∀ l : List RtpExtension, l.Pairwise (fun a b => stringLt b.name a.name = false) →
      (stdUnique uniquePred l).Pairwise (fun a b => stringLt a.name b.name = true)
  | [], _ => List.Pairwise.nil
  | a :: l, h => by
    rw [List.pairwise_cons] at h
    exact uniqueLoop_strict l a h.1 h.2

theorem uniqueLoop_eq_self :
    ∀ (l : List RtpExtension) (dest : RtpExtension),
      (dest :: l).Pairwise (fun a b => stringLt a.name b.name = true) →
      uniqueLoop uniquePred dest l = l
  | [], _, _ => rfl
  | x :: rest, dest, h => by
    rw [List.pairwise_cons] at h
    have hp : ¬ uniquePred dest x = true := by
      intro hp
      have heq : dest.name = x.name := by simpa [uniquePred] using hp
      have := h.1 x (List.mem_cons_self _ _)
      rw [heq, stringLt_irrefl] at this
      cases this
    unfold uniqueLoop
    rw [if_neg hp, uniqueLoop_eq_self rest x h.2]

/-- The `std::unique` step changes nothing in a strictly increasing list. -/
theorem stdUnique_eq_self :
    ∀ l : List RtpExtension, l.Pairwise (fun a b => stringLt a.name b.name = true) →
      stdUnique uniquePred l = l
  | [], _ => rfl
  | a :: l, h => by rw [stdUnique, uniqueLoop_eq_self l a h]

/-! ## `DiscardRedundantExtensions` -/

theorem eraseIdx_findIdx (p : RtpExtension → Bool) :
    ∀ l : List RtpExtension, l.eraseIdx (l.findIdx p) = l.eraseP p
  | [] => rfl
  | a :: l => by
    by_cases h : p a = true
    · simp [List.findIdx_cons, h]
    · have h' : p a = false := by simpa using h
      simp [List.findIdx_cons, h', eraseIdx_findIdx p l]

/-- In a list with pairwise distinct names, erasing the first entry named `n` removes every
entry named `n`. -/
theorem eraseP_name_eq_filter (n : String) :
    ∀ l : List RtpExtension, (l.map (fun e => e.name)).Nodup →
      l.eraseP (fun rhs => rhs.name == n) = l.filter (fun e => decide (e.name ≠ n))
  | [], _ => rfl
  | a :: l, h => by
    rw [List.map_cons, List.nodup_cons] at h
    by_cases ha : a.name = n
    · have hl : ∀ e ∈ l, decide (e.name ≠ n) = true := by
        intro e he
        have : e.name ≠ a.name := fun heq => h.1 (heq ▸ List.mem_map_of_mem _ he)
        simpa [← ha] using this
      rw [List.eraseP_cons_of_pos (by simp [ha]), List.filter_cons_of_neg (by simp [ha]),
        List.filter_eq_self.2 hl]
    · simp [ha, eraseP_name_eq_filter n l h.2]

theorem findIdx_ne_length_iff (l : List RtpExtension) (n : String) :
    l.findIdx (fun rhs => rhs.name == n) ≠ l.length ↔ hasName l n = true := by
  rw [Ne, List.findIdx_eq_length, hasName, List.any_eq_true]
  push_neg
  simp

theorem hasName_filter_ne {l : List RtpExtension} {n m : String} (h : m ≠ n) :
    hasName (l.filter (fun e => decide (e.name ≠ n))) m = hasName l m := by
  rw [Bool.eq_iff_iff, hasName, hasName, List.any_eq_true, List.any_eq_true]
  constructor
  · rintro ⟨e, he, hm⟩
    exact ⟨e, (List.mem_filter.1 he).1, hm⟩
  · rintro ⟨e, he, hm⟩
    refine ⟨e, List.mem_filter.2 ⟨he, ?_⟩, hm⟩
    have : e.name = m := by simpa using hm
    simpa [this] using h

/-- The effect of the loop of `DiscardRedundantExtensions` on a list with pairwise distinct
names, for a priority list without repetition. -/
theorem discardLoop_eq_filter :
    ∀ (prio : List String) (l : List RtpExtension) (found : Bool),
      (l.map (fun e => e.name)).Nodup → prio.Nodup →
      discardLoop prio l found = l.filter (fun e => keptName prio l found e.name)
  | [], l, found, _, _ => by
    simp [discardLoop, keptName]
  | name :: rest, l, found, hl, hp => by
    rw [List.nodup_cons] at hp
    unfold discardLoop
    simp only
    by_cases hpres : hasName l name = true
    · rw [if_pos ((findIdx_ne_length_iff l name).2 hpres)]
      cases found
      · rw [if_neg (by simp), discardLoop_eq_filter rest l true hl hp.2]
        refine List.filter_congr fun e _ => ?_
        have hf : (name :: rest).find? (hasName l) = some name := by
          simp [List.find?_cons, hpres]
        simp only [keptName, hf, List.mem_cons, not_or, Option.some.injEq, true_and,
          decide_eq_decide]
        constructor
        · rintro (h | h)
          · by_cases hn : e.name = name
            · exact Or.inr hn.symm
            · exact Or.inl ⟨hn, h⟩
          · cases h.1
        · rintro (h | h)
          · exact Or.inl h.2
          · exact Or.inl (h ▸ hp.1)
      · rw [if_pos rfl, eraseIdx_findIdx, eraseP_name_eq_filter name l hl]
        have hl' : ((l.filter (fun e => decide (e.name ≠ name))).map (fun e => e.name)).Nodup :=
          (List.filter_sublist _).map _ |>.nodup hl
        rw [discardLoop_eq_filter rest _ true hl' hp.2, List.filter_filter]
        refine List.filter_congr fun e _ => ?_
        simp only [keptName, List.mem_cons, not_or, Bool.decide_and, Bool.decide_or]
        simp [Bool.and_comm]
    · have habs : hasName l name = false := by simpa using hpres
      rw [if_neg (by rw [findIdx_ne_length_iff]; exact hpres),
        discardLoop_eq_filter rest l found hl hp.2]
      refine List.filter_congr fun e he => ?_
      have hne : e.name ≠ name := by
        intro heq
        apply hpres
        rw [hasName, List.any_eq_true]
        exact ⟨e, he, by simp [heq]⟩
      have hf : (name :: rest).find? (hasName l) = rest.find? (hasName l) := by
        simp [List.find?_cons, habs]
      simp only [keptName, hf, List.mem_cons, not_or, decide_eq_decide]
      constructor
      · rintro (h | h)
        · exact Or.inl ⟨hne, h⟩
        · exact Or.inr h
      · rintro (h | h)
        · exact Or.inl h.2
        · exact Or.inr h

theorem DiscardRedundantExtensions_eq_filter (prio : List String) (l : List RtpExtension)
    (hl : (l.map (fun e => e.name)).Nodup) (hp : prio.Nodup) :
    DiscardRedundantExtensions l prio = l.filter (fun e => keptName prio l false e.name) :=
  discardLoop_eq_filter prio l false hl hp

theorem discardLoop_sublist :
    ∀ (prio : List String) (l : List RtpExtension) (found : Bool),
      (discardLoop prio l found).Sublist l
  | [], l, _ => List.Sublist.refl l
  | name :: rest, l, found => by
    unfold discardLoop
    simp only
    split_ifs
    · exact (discardLoop_sublist rest _ true).trans (List.eraseIdx_sublist _ _)
    · exact discardLoop_sublist rest _ true
    · exact discardLoop_sublist rest _ found

theorem DiscardRedundantExtensions_sublist (prio : List String) (l : List RtpExtension) :
    (DiscardRedundantExtensions l prio).Sublist l :=
  discardLoop_sublist prio l false

theorem kBweExtensionPriorities_nodup : kBweExtensionPriorities.Nodup := by decide

/-! ## Structure of `FilterRtpExtensions` -/

theorem mem_supportedExtensions {extensions : List RtpHeaderExtension}
    {supported : String → Bool} {e : RtpExtension} :
    e ∈ supportedExtensions extensions supported ↔
      supported e.name = true ∧ toRequest e ∈ extensions := by
  simp only [supportedExtensions, List.mem_map, List.mem_filter]
  constructor
  · rintro ⟨x, ⟨hx, hs⟩, rfl⟩
    exact ⟨hs, hx⟩
  · rintro ⟨hs, hx⟩
    exact ⟨toRequest e, ⟨hx, hs⟩, rfl⟩

theorem supportedExtensions_map_id (extensions : List RtpHeaderExtension)
    (supported : String → Bool) :
    (supportedExtensions extensions supported).map (fun e => e.id)
      = (extensions.filter (fun e => supported e.uri)).map (fun e => e.id) := by
  simp [supportedExtensions, Function.comp_def]

theorem supportedExtensions_map_name (extensions : List RtpHeaderExtension)
    (supported : String → Bool) :
    (supportedExtensions extensions supported).map (fun e => e.name)
      = (extensions.filter (fun e => supported e.uri)).map (fun e => e.uri) := by
  simp [supportedExtensions, Function.comp_def]

theorem supportedExtensions_perm {x y : List RtpHeaderExtension} (h : y.Perm x)
    (supported : String → Bool) :
    (supportedExtensions y supported).Perm (supportedExtensions x supported) :=
  (h.filter _).map _

/-- Reading a list of supported negotiated entries back as requests and collecting the
supported ones gives the list itself. -/
theorem supportedExtensions_toRequest (supported : String → Bool) :
    ∀ l : List RtpExtension, (∀ e ∈ l, supported e.name = true) →
      supportedExtensions (l.map toRequest) supported = l
  | [], _ => rfl
  | a :: l, h => by
    have ha : supported a.name = true := h a (List.mem_cons_self _ _)
    have ih := supportedExtensions_toRequest supported l
      (fun e he => h e (List.mem_cons_of_mem _ he))
    simp only [supportedExtensions] at ih ⊢
    simp [toRequest, ha, ih]

theorem hasName_supportedExtensions (extensions : List RtpHeaderExtension)
    (supported : String → Bool) (n : String) :
    hasName (supportedExtensions extensions supported) n
      = extensions.any (fun e => supported e.uri && e.uri == n) := by
  rw [Bool.eq_iff_iff, hasName, List.any_eq_true, List.any_eq_true]
  constructor
  · rintro ⟨e, he, hn⟩
    rw [mem_supportedExtensions] at he
    exact ⟨toRequest e, he.2, by simpa [toRequest, he.1] using hn⟩
  · rintro ⟨x, hx, hn⟩
    simp only [Bool.and_eq_true, beq_iff_eq] at hn
    refine ⟨⟨x.uri, x.id⟩, mem_supportedExtensions.2 ⟨hn.1, hx⟩, by simpa using hn.2⟩

theorem hasName_perm {l₁ l₂ : List RtpExtension} (h : l₁.Perm l₂) (n : String) :
    hasName l₁ n = hasName l₂ n := by
  rw [Bool.eq_iff_iff, hasName, hasName, List.any_eq_true, List.any_eq_true]
  exact ⟨fun ⟨e, he, hn⟩ => ⟨e, h.mem_iff.1 he, hn⟩, fun ⟨e, he, hn⟩ => ⟨e, h.mem_iff.2 he, hn⟩⟩

/-- The list after the `std::sort` and `std::unique` steps. -/
theorem sortedUnique_facts {sort : StdSort} (hs : StdSortSpec sort) (l : List RtpExtension) :
    (stdUnique uniquePred (sort sortComp l)).Pairwise
        (fun a b => stringLt a.name b.name = true) ∧
      (stdUnique uniquePred (sort sortComp l)).Sublist (sort sortComp l) ∧
      ∀ n, hasName (stdUnique uniquePred (sort sortComp l)) n = hasName l n :=
  ⟨stdUnique_strict _ (hs.forSortComp l).2, stdUnique_sublist _ _,
    fun n => (stdUnique_any n _).trans (hasName_perm (hs.forSortComp l).1 n)⟩

theorem hasName_congr {l₁ l₂ : List RtpExtension} (h : ∀ n, hasName l₁ n = hasName l₂ n) :
    hasName l₁ = hasName l₂ := funext h

/-- With `filter_redundant_extensions`, the result is the sorted list without repeated names,
restricted to the names kept by the priority elimination. -/
theorem FilterRtpExtensions_true_eq {sort : StdSort} (hs : StdSortSpec sort)
    (extensions : List RtpHeaderExtension) (supported : String → Bool) :
    FilterRtpExtensions sort extensions supported true
      = (stdUnique uniquePred (sort sortComp (supportedExtensions extensions supported))).filter
          (fun e => keptName kBweExtensionPriorities
            (supportedExtensions extensions supported) false e.name) := by
  obtain ⟨h1, _, h3⟩ := sortedUnique_facts hs (supportedExtensions extensions supported)
  simp only [FilterRtpExtensions, if_true]
  rw [DiscardRedundantExtensions_eq_filter _ _ (nodup_of_pairwise_strict h1)
    kBweExtensionPriorities_nodup]
  simp only [keptName, hasName_congr h3]

theorem FilterRtpExtensions_sublist_sort (sort : StdSort)
    (extensions : List RtpHeaderExtension) (supported : String → Bool) (d : Bool) :
    (FilterRtpExtensions sort extensions supported d).Sublist
      (sort sortComp (supportedExtensions extensions supported)) := by
  cases d
  · exact List.Sublist.refl _
  · exact (DiscardRedundantExtensions_sublist _ _).trans (stdUnique_sublist _ _)

theorem FilterRtpExtensions_true_strict {sort : StdSort} (hs : StdSortSpec sort)
    (extensions : List RtpHeaderExtension) (supported : String → Bool) :
    (FilterRtpExtensions sort extensions supported true).Pairwise
      (fun a b => stringLt a.name b.name = true) :=
  (sortedUnique_facts hs _).1.sublist (DiscardRedundantExtensions_sublist _ _)

theorem mem_FilterRtpExtensions {sort : StdSort} (hs : StdSortSpec sort)
    {extensions : List RtpHeaderExtension} {supported : String → Bool} {d : Bool}
    {e : RtpExtension} (he : e ∈ FilterRtpExtensions sort extensions supported d) :
    supported e.name = true ∧ toRequest e ∈ extensions :=
  mem_supportedExtensions.1
    ((hs.forSortComp _).1.mem_iff.1 ((FilterRtpExtensions_sublist_sort _ _ _ _).subset he))

/-- In a list with pairwise distinct names, the entries named `n` are a single entry as soon
as the name occurs. -/
theorem filter_name_singleton (n : String) :
    ∀ l : List RtpExtension, (l.map (fun e => e.name)).Nodup → hasName l n = true →
      ∃ e, e.name = n ∧ l.filter (fun e => e.name == n) = [e]
  | [], _, h => by simp [hasName] at h
  | a :: l, hl, h => by
    rw [List.map_cons, List.nodup_cons] at hl
    by_cases ha : a.name = n
    · refine ⟨a, ha, ?_⟩
      have hnone : l.filter (fun e => e.name == n) = [] := by
        rw [List.filter_eq_nil_iff]
        intro e he hn
        have : e.name = a.name := by rw [ha]; simpa using hn
        exact hl.1 (this ▸ List.mem_map_of_mem _ he)
      rw [List.filter_cons_of_pos (by simp [ha]), hnone]
    · have h' : hasName l n = true := by
        simp only [hasName, List.any_cons, Bool.or_eq_true, beq_iff_eq] at h ⊢
        rcases h with h | h
        · exact absurd h ha
        · exact h
      obtain ⟨e, he, hf⟩ := filter_name_singleton n l hl.2 h'
      exact ⟨e, he, by rw [List.filter_cons_of_neg (by simp [ha]), hf]⟩

theorem find?_some_of_imp {p q : String → Bool} {a : String} (hq : q a = true)
    (hqp : ∀ b, q b = true → p b = true) :
    ∀ l : List String, l.find? p = some a → l.find? q = some a
  | [], h => by cases h
  | b :: l, h => by
    rw [List.find?_cons] at h ⊢
    by_cases hb : p b = true
    · rw [hb] at h
      cases h
      rw [hq]
    · have hb' : p b = false := by simpa using hb
      have hqb : q b = false := by
        by_contra hc
        exact hb (hqp b (by simpa using hc))
      rw [hb'] at h
      rw [hqb]
      exact find?_some_of_imp hq hqp l h

/-! ## The negotiated list -/

/-- C1: `ValidateRtpExtensions` returns false exactly when some entry has an id outside
1..14 or some id occurs more than once; it returns true exactly when all ids lie in 1..14 and
are pairwise distinct; and the result is the same for any two lists with the same ids. -/
theorem ValidateRtpExtensions_spec (extensions : List RtpHeaderExtension) :
    (ValidateRtpExtensions extensions = some false ↔
      (∃ e ∈ extensions, e.id < 1 ∨ 14 < e.id) ∨
        ∃ v, 1 < (extensions.map (fun e => e.id)).count v) ∧
    (ValidateRtpExtensions extensions = some true ↔
      (∀ e ∈ extensions, 1 ≤ e.id ∧ e.id ≤ 14) ∧ (extensions.map (fun e => e.id)).Nodup) ∧
    (∀ other : List RtpHeaderExtension,
      other.map (fun e => e.id) = extensions.map (fun e => e.id) →
      ValidateRtpExtensions other = ValidateRtpExtensions extensions) := by
  refine ⟨?_, ValidateRtpExtensions_eq_true_iff extensions, fun other ho => ?_⟩
  · rw [ValidateRtpExtensions_eq_false_iff, List.nodup_iff_count_le_one]
    push_neg
    rfl
  · have key : ∀ l : List RtpHeaderExtension, ValidateRtpExtensions l = some true ↔
        (∀ v ∈ l.map (fun e => e.id), 1 ≤ v ∧ v ≤ 14) ∧ (l.map (fun e => e.id)).Nodup := by
      intro l
      rw [ValidateRtpExtensions_eq_true_iff]
      simp
    have h1 := key other
    rw [ho, ← key extensions] at h1
    have h2 := ValidateRtpExtensions_ne_none other
    have h3 := ValidateRtpExtensions_ne_none extensions
    rcases ho' : ValidateRtpExtensions other with _ | _ | _ <;>
      rcases he' : ValidateRtpExtensions extensions with _ | _ | _ <;> simp_all

theorem ValidateRtpExtensions_spec_witness :
    ValidateRtpExtensions [⟨"X", 15⟩] = some false ∧
    ValidateRtpExtensions [⟨"X", 4⟩, ⟨"Y", 4⟩] = some false :=
  ⟨(ValidateRtpExtensions_spec [⟨"X", 15⟩]).1.2
      (Or.inl ⟨⟨"X", 15⟩, List.mem_singleton_self _, Or.inr (by decide)⟩),
    (ValidateRtpExtensions_spec [⟨"X", 4⟩, ⟨"Y", 4⟩]).1.2 (Or.inr ⟨4, by decide⟩)⟩

/-- C2: for every list accepted by `ValidateRtpExtensions`, every supported-predicate and both
values of `filter_redundant_extensions`, the result of `FilterRtpExtensions` is sorted ascending
by name: no entry's name is less than the name of an entry before it. -/
theorem FilterRtpExtensions_sorted (sort : StdSort) (hs : StdSortSpec sort)
    (extensions : List RtpHeaderExtension) (supported : String → Bool)
    (filter_redundant_extensions : Bool)
    (_hv : ValidateRtpExtensions extensions = some true) :
    (FilterRtpExtensions sort extensions supported filter_redundant_extensions).Pairwise
      (fun a b => stringLt b.name a.name = false) :=
  (hs.forSortComp _).2.sublist (FilterRtpExtensions_sublist_sort _ _ _ _)

theorem FilterRtpExtensions_sorted_witness :
    StdSortSpec insertionSortBy ∧
    ValidateRtpExtensions [⟨"timestamp-offset", 4⟩, ⟨"video-orientation", 7⟩,
      ⟨"absolute-send-time", 1⟩, ⟨"audio-level", 9⟩] = some true ∧
    (FilterRtpExtensions insertionSortBy [⟨"timestamp-offset", 4⟩, ⟨"video-orientation", 7⟩,
      ⟨"absolute-send-time", 1⟩, ⟨"audio-level", 9⟩] (fun _ => true) false).Pairwise
      (fun a b => stringLt b.name a.name = false) :=
  ⟨insertionSortBy_spec, by decide,
    FilterRtpExtensions_sorted insertionSortBy insertionSortBy_spec _ _ _ (by decide)⟩

/-- C3 fails without `filter_redundant_extensions`: the valid list `[{A, 3}, {A, 5}]` with
everything supported is returned whole, with two entries named `A`. -/
theorem FilterRtpExtensions_keeps_duplicates_when_not_redundant :
    ValidateRtpExtensions [⟨"A", 3⟩, ⟨"A", 5⟩] = some true ∧
    FilterRtpExtensions insertionSortBy [⟨"A", 3⟩, ⟨"A", 5⟩] (fun _ => true) false
      = [⟨"A", 3⟩, ⟨"A", 5⟩] ∧
    ¬ ((FilterRtpExtensions insertionSortBy [⟨"A", 3⟩, ⟨"A", 5⟩] (fun _ => true) false).map
        (fun e => e.name)).Nodup := by
  decide

/-- C3, amended: for every list accepted by `ValidateRtpExtensions` and every
supported-predicate, with `filter_redundant_extensions = true` the result of
`FilterRtpExtensions` has no two entries with the same name. -/
theorem FilterRtpExtensions_names_nodup (sort : StdSort) (hs : StdSortSpec sort)
    (extensions : List RtpHeaderExtension) (supported : String → Bool)
    (_hv : ValidateRtpExtensions extensions = some true) :
    ((FilterRtpExtensions sort extensions supported true).map (fun e => e.name)).Nodup :=
  nodup_of_pairwise_strict (FilterRtpExtensions_true_strict hs _ _)

theorem FilterRtpExtensions_names_nodup_witness :
    StdSortSpec insertionSortBy ∧
    ValidateRtpExtensions [⟨"A", 3⟩, ⟨"A", 5⟩] = some true ∧
    ((FilterRtpExtensions insertionSortBy [⟨"A", 3⟩, ⟨"A", 5⟩] (fun _ => true) true).map
      (fun e => e.name)).Nodup :=
  ⟨insertionSortBy_spec, by decide,
    FilterRtpExtensions_names_nodup insertionSortBy insertionSortBy_spec _ _ (by decide)⟩

/-- C4: for every list accepted by `ValidateRtpExtensions` and every supported-predicate, with
`filter_redundant_extensions = true`: when two or more names of `kBweExtensionPriorities` occur
among the supported entries of the input, the result of `FilterRtpExtensions` has exactly one
entry whose name is in `kBweExtensionPriorities`, and its name is the first name of
`kBweExtensionPriorities` (the highest priority) that occurs among the supported entries. -/
theorem FilterRtpExtensions_bwe_priority (sort : StdSort) (hs : StdSortSpec sort)
    (extensions : List RtpHeaderExtension) (supported : String → Bool)
    (_hv : ValidateRtpExtensions extensions = some true)
    (h2 : 2 ≤ (kBweExtensionPriorities.filter
      (fun n => extensions.any (fun e => supported e.uri && e.uri == n))).length) :
    ∃ e, (FilterRtpExtensions sort extensions supported true).filter
          (fun e => decide (e.name ∈ kBweExtensionPriorities)) = [e] ∧
      kBweExtensionPriorities.find?
          (fun n => extensions.any (fun e => supported e.uri && e.uri == n)) = some e.name := by
  have hpres : (fun n => extensions.any (fun e => supported e.uri && e.uri == n))
      = hasName (supportedExtensions extensions supported) :=
    funext fun n => (hasName_supportedExtensions extensions supported n).symm
  rw [hpres] at h2 ⊢
  obtain ⟨h1, _, h3⟩ := sortedUnique_facts hs (supportedExtensions extensions supported)
  have hsome : (kBweExtensionPriorities.find?
      (hasName (supportedExtensions extensions supported))).isSome = true := by
    rw [List.find?_isSome]
    rcases hf : kBweExtensionPriorities.filter
        (hasName (supportedExtensions extensions supported)) with _ | ⟨n, t⟩
    · rw [hf] at h2
      simp at h2
    · have hn : n ∈ kBweExtensionPriorities.filter
          (hasName (supportedExtensions extensions supported)) := by
        rw [hf]
        exact List.mem_cons_self _ _
      exact ⟨n, List.mem_filter.1 hn⟩
  obtain ⟨top, htop⟩ := Option.isSome_iff_exists.1 hsome
  have htop_mem : top ∈ kBweExtensionPriorities := List.mem_of_find?_eq_some htop
  have htop_has : hasName (supportedExtensions extensions supported) top = true :=
    List.find?_some htop
  obtain ⟨e, he, hf⟩ := filter_name_singleton top _ (nodup_of_pairwise_strict h1)
    ((h3 top).trans htop_has)
  refine ⟨e, ?_, by rw [htop, he]⟩
  rw [FilterRtpExtensions_true_eq hs, List.filter_filter, ← hf]
  refine List.filter_congr fun b _ => ?_
  rw [Bool.eq_iff_iff]
  simp only [keptName, htop, Bool.and_eq_true, decide_eq_true_eq, Option.some.injEq, true_and,
    beq_iff_eq]
  constructor
  · rintro ⟨hb, h | h⟩
    · exact absurd hb h
    · exact h.symm
  · intro h
    exact ⟨h ▸ htop_mem, Or.inr h.symm⟩

theorem FilterRtpExtensions_bwe_priority_witness :
    StdSortSpec insertionSortBy ∧
    ValidateRtpExtensions [⟨"timestamp-offset", 4⟩, ⟨"absolute-send-time", 1⟩,
      ⟨"transport-wide-sequence-number", 2⟩, ⟨"audio-level", 9⟩] = some true ∧
    ∃ e, (FilterRtpExtensions insertionSortBy [⟨"timestamp-offset", 4⟩,
          ⟨"absolute-send-time", 1⟩, ⟨"transport-wide-sequence-number", 2⟩, ⟨"audio-level", 9⟩]
          (fun n => n != "transport-wide-sequence-number") true).filter
          (fun e => decide (e.name ∈ kBweExtensionPriorities)) = [e] ∧
      kBweExtensionPriorities.find?
          (fun n => List.any [⟨"timestamp-offset", 4⟩, ⟨"absolute-send-time", 1⟩,
            ⟨"transport-wide-sequence-number", 2⟩, (⟨"audio-level", 9⟩ : RtpHeaderExtension)]
            (fun e => (fun n => n != "transport-wide-sequence-number") e.uri && e.uri == n))
        = some e.name :=
  ⟨insertionSortBy_spec, by decide,
    FilterRtpExtensions_bwe_priority insertionSortBy insertionSortBy_spec _ _ (by decide)
      (by decide)⟩

/-- C5: idempotence. For every list accepted by `ValidateRtpExtensions` and every
supported-predicate, filtering the result of `FilterRtpExtensions` (with
`filter_redundant_extensions = true`, each `{name, id}` read as `{uri, id}`) again gives the
same list. -/
theorem FilterRtpExtensions_idempotent (sort : StdSort) (hs : StdSortSpec sort)
    (extensions : List RtpHeaderExtension) (supported : String → Bool)
    (_hv : ValidateRtpExtensions extensions = some true) :
    FilterRtpExtensions sort
        ((FilterRtpExtensions sort extensions supported true).map toRequest) supported true
      = FilterRtpExtensions sort extensions supported true := by
  have hstrict := FilterRtpExtensions_true_strict hs extensions supported
  have hsup : ∀ e ∈ FilterRtpExtensions sort extensions supported true,
      supported e.name = true := fun e he => (mem_FilterRtpExtensions hs he).1
  have hkept : ∀ e ∈ FilterRtpExtensions sort extensions supported true,
      keptName kBweExtensionPriorities (supportedExtensions extensions supported) false e.name
        = true := by
    intro e he
    rw [FilterRtpExtensions_true_eq hs] at he
    exact (List.mem_filter.1 he).2
  have hsub : ∀ n, hasName (FilterRtpExtensions sort extensions supported true) n = true →
      hasName (supportedExtensions extensions supported) n = true := by
    intro n hn
    rw [hasName, List.any_eq_true] at hn ⊢
    obtain ⟨e, he, hen⟩ := hn
    exact ⟨e, (hs.forSortComp _).1.mem_iff.1
      ((FilterRtpExtensions_sublist_sort _ _ _ _).subset he), hen⟩
  generalize FilterRtpExtensions sort extensions supported true = out at hstrict hsup hkept hsub
  rw [FilterRtpExtensions_true_eq hs, supportedExtensions_toRequest supported out hsup]
  have hsort : sort sortComp out = out := by
    obtain ⟨hp, hsorted⟩ := hs.forSortComp out
    refine eq_of_perm_of_strict hp (pairwise_strict_of_nodup hsorted ?_) hstrict
    exact ((hp.map _).nodup_iff).2 (nodup_of_pairwise_strict hstrict)
  rw [hsort, stdUnique_eq_self out hstrict, List.filter_eq_self]
  intro e he
  have hk := hkept e he
  simp only [keptName, decide_eq_true_eq, true_and] at hk ⊢
  rcases hk with hk | hk
  · exact Or.inl hk
  · refine Or.inr (find?_some_of_imp ?_ hsub _ hk)
    rw [hasName, List.any_eq_true]
    exact ⟨e, he, by simp⟩

theorem FilterRtpExtensions_idempotent_witness :
    StdSortSpec insertionSortBy ∧
    ValidateRtpExtensions [⟨"timestamp-offset", 4⟩, ⟨"video-orientation", 7⟩,
      ⟨"absolute-send-time", 1⟩, ⟨"video-orientation", 9⟩] = some true ∧
    FilterRtpExtensions insertionSortBy
        ((FilterRtpExtensions insertionSortBy [⟨"timestamp-offset", 4⟩,
          ⟨"video-orientation", 7⟩, ⟨"absolute-send-time", 1⟩, ⟨"video-orientation", 9⟩]
          (fun _ => true) true).map toRequest) (fun _ => true) true
      = FilterRtpExtensions insertionSortBy [⟨"timestamp-offset", 4⟩,
          ⟨"video-orientation", 7⟩, ⟨"absolute-send-time", 1⟩, ⟨"video-orientation", 9⟩]
          (fun _ => true) true :=
  ⟨insertionSortBy_spec, by decide,
    FilterRtpExtensions_idempotent insertionSortBy insertionSortBy_spec _ _ (by decide)⟩

/-- C6 fails when two entries share a uri: `[{A, 3}, {A, 5}]` and its permutation
`[{A, 5}, {A, 3}]` are both valid, and with everything supported the results differ, for either
value of `filter_redundant_extensions`. -/
theorem FilterRtpExtensions_depends_on_order :
    ValidateRtpExtensions [⟨"A", 3⟩, ⟨"A", 5⟩] = some true ∧
    List.Perm [(⟨"A", 5⟩ : RtpHeaderExtension), ⟨"A", 3⟩] [⟨"A", 3⟩, ⟨"A", 5⟩] ∧
    FilterRtpExtensions insertionSortBy [⟨"A", 3⟩, ⟨"A", 5⟩] (fun _ => true) true
      = [⟨"A", 3⟩] ∧
    FilterRtpExtensions insertionSortBy [⟨"A", 5⟩, ⟨"A", 3⟩] (fun _ => true) true
      = [⟨"A", 5⟩] ∧
    FilterRtpExtensions insertionSortBy [⟨"A", 5⟩, ⟨"A", 3⟩] (fun _ => true) true
      ≠ FilterRtpExtensions insertionSortBy [⟨"A", 3⟩, ⟨"A", 5⟩] (fun _ => true) true ∧
    FilterRtpExtensions insertionSortBy [⟨"A", 5⟩, ⟨"A", 3⟩] (fun _ => true) false
      ≠ FilterRtpExtensions insertionSortBy [⟨"A", 3⟩, ⟨"A", 5⟩] (fun _ => true) false :=
  ⟨by decide, List.Perm.swap _ _ _, by decide, by decide, by decide, by decide⟩

/-- C6, amended: for every list `x` accepted by `ValidateRtpExtensions` in which no two
supported entries share a uri, every permutation `y` of `x`, every supported-predicate and each
value of `filter_redundant_extensions`, `FilterRtpExtensions` returns the same list for `y` as
for `x`. -/
theorem FilterRtpExtensions_perm (sort : StdSort) (hs : StdSortSpec sort)
    (x y : List RtpHeaderExtension) (supported : String → Bool)
    (filter_redundant_extensions : Bool)
    (_hv : ValidateRtpExtensions x = some true) (hp : y.Perm x)
    (hu : ((x.filter (fun e => supported e.uri)).map (fun e => e.uri)).Nodup) :
    FilterRtpExtensions sort y supported filter_redundant_extensions
      = FilterRtpExtensions sort x supported filter_redundant_extensions := by
  obtain ⟨hpx, hsx⟩ := hs.forSortComp (supportedExtensions x supported)
  obtain ⟨hpy, hsy⟩ := hs.forSortComp (supportedExtensions y supported)
  rw [← supportedExtensions_map_name] at hu
  have hnx : ((sort sortComp (supportedExtensions x supported)).map (fun e => e.name)).Nodup :=
    ((hpx.map _).nodup_iff).2 hu
  have hpyx : (sort sortComp (supportedExtensions y supported)).Perm
      (sort sortComp (supportedExtensions x supported)) :=
    (hpy.trans (supportedExtensions_perm hp supported)).trans hpx.symm
  have hny : ((sort sortComp (supportedExtensions y supported)).map (fun e => e.name)).Nodup :=
    ((hpyx.map _).nodup_iff).2 hnx
  have heq : sort sortComp (supportedExtensions y supported)
      = sort sortComp (supportedExtensions x supported) :=
    eq_of_perm_of_strict hpyx (pairwise_strict_of_nodup hsy hny)
      (pairwise_strict_of_nodup hsx hnx)
  simp only [FilterRtpExtensions, heq]

theorem FilterRtpExtensions_perm_witness :
    StdSortSpec insertionSortBy ∧
    ValidateRtpExtensions [⟨"timestamp-offset", 4⟩, ⟨"video-orientation", 7⟩,
      ⟨"absolute-send-time", 1⟩] = some true ∧
    List.Perm [(⟨"video-orientation", 7⟩ : RtpHeaderExtension), ⟨"timestamp-offset", 4⟩,
      ⟨"absolute-send-time", 1⟩]
      [⟨"timestamp-offset", 4⟩, ⟨"video-orientation", 7⟩, ⟨"absolute-send-time", 1⟩] ∧
    FilterRtpExtensions insertionSortBy [⟨"video-orientation", 7⟩, ⟨"timestamp-offset", 4⟩,
        ⟨"absolute-send-time", 1⟩] (fun _ => true) true
      = FilterRtpExtensions insertionSortBy [⟨"timestamp-offset", 4⟩, ⟨"video-orientation", 7⟩,
        ⟨"absolute-send-time", 1⟩] (fun _ => true) true :=
  ⟨insertionSortBy_spec, by decide, List.Perm.swap _ _ _,
    FilterRtpExtensions_perm insertionSortBy insertionSortBy_spec _ _ _ _ (by decide)
      (List.Perm.swap _ _ _) (by decide)⟩

/-- C7: for every list accepted by `ValidateRtpExtensions`, every supported-predicate and both
flag values, every entry `{name, id}` of the result of `FilterRtpExtensions` is an entry of the
input with that uri and that id, and its uri is supported. -/
theorem FilterRtpExtensions_mem_input (sort : StdSort) (hs : StdSortSpec sort)
    (extensions : List RtpHeaderExtension) (supported : String → Bool)
    (filter_redundant_extensions : Bool)
    (_hv : ValidateRtpExtensions extensions = some true) :
    ∀ e ∈ FilterRtpExtensions sort extensions supported filter_redundant_extensions,
      ({ uri := e.name, id := e.id } : RtpHeaderExtension) ∈ extensions ∧
        supported e.name = true :=
  fun _ he => ⟨(mem_FilterRtpExtensions hs he).2, (mem_FilterRtpExtensions hs he).1⟩

theorem FilterRtpExtensions_mem_input_witness :
    StdSortSpec insertionSortBy ∧
    ValidateRtpExtensions [⟨"timestamp-offset", 4⟩, ⟨"video-orientation", 7⟩,
      ⟨"absolute-send-time", 1⟩, ⟨"audio-level", 9⟩] = some true ∧
    ∀ e ∈ FilterRtpExtensions insertionSortBy [⟨"timestamp-offset", 4⟩,
        ⟨"video-orientation", 7⟩, ⟨"absolute-send-time", 1⟩, ⟨"audio-level", 9⟩]
        (fun n => n != "audio-level") true,
      ({ uri := e.name, id := e.id } : RtpHeaderExtension) ∈
        [⟨"timestamp-offset", 4⟩, ⟨"video-orientation", 7⟩, ⟨"absolute-send-time", 1⟩,
          (⟨"audio-level", 9⟩ : RtpHeaderExtension)] ∧
        (fun n => n != "audio-level") e.name = true :=
  ⟨insertionSortBy_spec, by decide,
    FilterRtpExtensions_mem_input insertionSortBy insertionSortBy_spec _ _ _ (by decide)⟩

/-- C8: for every list accepted by `ValidateRtpExtensions` and every supported-predicate, with
`filter_redundant_extensions = true`, every supported uri that occurs in the input and is not
in `kBweExtensionPriorities` is the name of exactly one entry of the result of
`FilterRtpExtensions`. -/
theorem FilterRtpExtensions_keeps_other (sort : StdSort) (hs : StdSortSpec sort)
    (extensions : List RtpHeaderExtension) (supported : String → Bool)
    (_hv : ValidateRtpExtensions extensions = some true) (u : String)
    (hocc : ∃ x ∈ extensions, x.uri = u) (hsup : supported u = true)
    (hfam : u ∉ kBweExtensionPriorities) :
    (FilterRtpExtensions sort extensions supported true).countP (fun e => e.name == u) = 1 := by
  obtain ⟨h1, _, h3⟩ := sortedUnique_facts hs (supportedExtensions extensions supported)
  have hhas : hasName (supportedExtensions extensions supported) u = true := by
    rw [hasName_supportedExtensions, List.any_eq_true]
    obtain ⟨x, hx, hxu⟩ := hocc
    exact ⟨x, hx, by simp [hxu, hsup]⟩
  obtain ⟨e, _, hf⟩ := filter_name_singleton u _ (nodup_of_pairwise_strict h1)
    ((h3 u).trans hhas)
  have hfilter : (FilterRtpExtensions sort extensions supported true).filter
      (fun e => e.name == u) = [e] := by
    rw [FilterRtpExtensions_true_eq hs, List.filter_filter, ← hf]
    refine List.filter_congr fun b _ => ?_
    rw [Bool.eq_iff_iff]
    simp only [keptName, Bool.and_eq_true, decide_eq_true_eq, beq_iff_eq, true_and]
    constructor
    · rintro ⟨hb, _⟩
      exact hb
    · intro hb
      exact ⟨hb, Or.inl (hb ▸ hfam)⟩
  rw [List.countP_eq_length_filter, hfilter]
  rfl

theorem FilterRtpExtensions_keeps_other_witness :
    StdSortSpec insertionSortBy ∧
    ValidateRtpExtensions [⟨"timestamp-offset", 4⟩, ⟨"video-orientation", 7⟩,
      ⟨"absolute-send-time", 1⟩, ⟨"video-orientation", 9⟩] = some true ∧
    (FilterRtpExtensions insertionSortBy [⟨"timestamp-offset", 4⟩, ⟨"video-orientation", 7⟩,
      ⟨"absolute-send-time", 1⟩, ⟨"video-orientation", 9⟩] (fun _ => true) true).countP
      (fun e => e.name == "video-orientation") = 1 :=
  ⟨insertionSortBy_spec, by decide,
    FilterRtpExtensions_keeps_other insertionSortBy insertionSortBy_spec _ _ (by decide)
      "video-orientation" ⟨⟨"video-orientation", 7⟩, by decide, rfl⟩ rfl (by decide)⟩

/-- C9: for every list accepted by `ValidateRtpExtensions`, every supported-predicate and both
flag values, the result of `FilterRtpExtensions`, read back as a request list, is accepted by
`ValidateRtpExtensions`: its ids are pairwise distinct and lie in 1..14. -/
theorem FilterRtpExtensions_valid (sort : StdSort) (hs : StdSortSpec sort)
    (extensions : List RtpHeaderExtension) (supported : String → Bool)
    (filter_redundant_extensions : Bool)
    (hv : ValidateRtpExtensions extensions = some true) :
    ValidateRtpExtensions
        ((FilterRtpExtensions sort extensions supported filter_redundant_extensions).map
          toRequest) = some true ∧
      ((FilterRtpExtensions sort extensions supported filter_redundant_extensions).map
        (fun e => e.id)).Nodup ∧
      ∀ e ∈ FilterRtpExtensions sort extensions supported filter_redundant_extensions,
        1 ≤ e.id ∧ e.id ≤ 14 := by
  rw [ValidateRtpExtensions_eq_true_iff] at hv
  have hrange : ∀ e ∈ FilterRtpExtensions sort extensions supported
      filter_redundant_extensions, 1 ≤ e.id ∧ e.id ≤ 14 :=
    fun e he => hv.1 _ (mem_FilterRtpExtensions hs he).2
  have hnodup : ((FilterRtpExtensions sort extensions supported
      filter_redundant_extensions).map (fun e => e.id)).Nodup := by
    refine ((FilterRtpExtensions_sublist_sort sort extensions supported
      filter_redundant_extensions).map _).nodup ?_
    rw [(((hs.forSortComp _).1.map _).nodup_iff), supportedExtensions_map_id]
    exact ((List.filter_sublist _).map _).nodup hv.2
  refine ⟨?_, hnodup, hrange⟩
  rw [ValidateRtpExtensions_eq_true_iff]
  constructor
  · intro r hr
    obtain ⟨e, he, rfl⟩ := List.mem_map.1 hr
    exact hrange e he
  · rw [List.map_map]
    exact hnodup

theorem FilterRtpExtensions_valid_witness :
    StdSortSpec insertionSortBy ∧
    ValidateRtpExtensions [⟨"timestamp-offset", 4⟩, ⟨"video-orientation", 14⟩,
      ⟨"absolute-send-time", 1⟩, ⟨"video-orientation", 9⟩] = some true ∧
    (ValidateRtpExtensions
        ((FilterRtpExtensions insertionSortBy [⟨"timestamp-offset", 4⟩,
          ⟨"video-orientation", 14⟩, ⟨"absolute-send-time", 1⟩, ⟨"video-orientation", 9⟩]
          (fun _ => true) false).map toRequest) = some true ∧
      ((FilterRtpExtensions insertionSortBy [⟨"timestamp-offset", 4⟩,
          ⟨"video-orientation", 14⟩, ⟨"absolute-send-time", 1⟩, ⟨"video-orientation", 9⟩]
          (fun _ => true) false).map (fun e => e.id)).Nodup ∧
      ∀ e ∈ FilterRtpExtensions insertionSortBy [⟨"timestamp-offset", 4⟩,
          ⟨"video-orientation", 14⟩, ⟨"absolute-send-time", 1⟩, ⟨"video-orientation", 9⟩]
          (fun _ => true) false, 1 ≤ e.id ∧ e.id ≤ 14) :=
  ⟨insertionSortBy_spec, by decide,
    FilterRtpExtensions_valid insertionSortBy insertionSortBy_spec _ _ _ (by decide)⟩

/-- In a list with pairwise distinct names at most one entry has a given name. -/
theorem filter_name_length_le_one (n : String) (l : List RtpExtension)
    (hl : (l.map (fun e => e.name)).Nodup) :
    (l.filter (fun e => e.name == n)).length ≤ 1 := by
  by_cases h : hasName l n = true
  · obtain ⟨e, _, hf⟩ := filter_name_singleton n l hl h
    rw [hf]
    exact Nat.le_refl 1
  · have : l.filter (fun e => e.name == n) = [] := by
      rw [List.filter_eq_nil_iff]
      intro e he hn
      exact h (by rw [hasName, List.any_eq_true]; exact ⟨e, he, hn⟩)
    rw [this]
    exact Nat.zero_le 1

/-- A list accepted by `ValidateRtpExtensions` has at most 14 entries. -/
theorem length_le_of_valid {extensions : List RtpHeaderExtension}
    (hv : ValidateRtpExtensions extensions = some true) : extensions.length ≤ 14 := by
  rw [ValidateRtpExtensions_eq_true_iff] at hv
  have hsub : (extensions.map (fun e => e.id)).toFinset ⊆ Finset.Icc (1 : Int) 14 := by
    intro v hv'
    rw [List.mem_toFinset, List.mem_map] at hv'
    obtain ⟨e, he, rfl⟩ := hv'
    exact Finset.mem_Icc.2 (hv.1 e he)
  have hcard := Finset.card_le_card hsub
  rw [List.toFinset_card_of_nodup hv.2, List.length_map, Int.card_Icc] at hcard
  exact hcard

theorem FilterRtpExtensions_length_le {sort : StdSort} (hs : StdSortSpec sort)
    (extensions : List RtpHeaderExtension) (supported : String → Bool) (d : Bool) :
    (FilterRtpExtensions sort extensions supported d).length ≤ extensions.length := by
  refine (FilterRtpExtensions_sublist_sort sort extensions supported d).length_le.trans ?_
  rw [(hs.forSortComp _).1.length_eq, supportedExtensions, List.length_map]
  exact List.length_filter_le _ _

theorem supportedExtensions_map_toRequest (extensions : List RtpHeaderExtension)
    (supported : String → Bool) :
    (supportedExtensions extensions supported).map toRequest
      = extensions.filter (fun e => supported e.uri) := by
  rw [supportedExtensions, List.map_map]
  exact List.map_id _

/-- C13: for every list accepted by `ValidateRtpExtensions` and every supported-predicate, with
`filter_redundant_extensions = true`: when exactly one name `n` of `kBweExtensionPriorities`
occurs among the supported entries of the input, the result of `FilterRtpExtensions` has
exactly one entry named `n`. -/
theorem FilterRtpExtensions_lone_bwe (sort : StdSort) (hs : StdSortSpec sort)
    (extensions : List RtpHeaderExtension) (supported : String → Bool)
    (_hv : ValidateRtpExtensions extensions = some true) (n : String)
    (h1 : kBweExtensionPriorities.filter
      (fun m => extensions.any (fun e => supported e.uri && e.uri == m)) = [n]) :
    (FilterRtpExtensions sort extensions supported true).countP (fun e => e.name == n) = 1 := by
  have hpres : (fun m => extensions.any (fun e => supported e.uri && e.uri == m))
      = hasName (supportedExtensions extensions supported) :=
    funext fun m => (hasName_supportedExtensions extensions supported m).symm
  rw [hpres] at h1
  obtain ⟨hstrict, _, h3⟩ := sortedUnique_facts hs (supportedExtensions extensions supported)
  have hfind : kBweExtensionPriorities.find?
      (hasName (supportedExtensions extensions supported)) = some n := by
    rw [← List.filter_head?, h1]
    rfl
  have hhas : hasName (supportedExtensions extensions supported) n = true :=
    List.find?_some hfind
  obtain ⟨e, _, hf⟩ := filter_name_singleton n _ (nodup_of_pairwise_strict hstrict)
    ((h3 n).trans hhas)
  have hfilter : (FilterRtpExtensions sort extensions supported true).filter
      (fun e => e.name == n) = [e] := by
    rw [FilterRtpExtensions_true_eq hs, List.filter_filter, ← hf]
    refine List.filter_congr fun b _ => ?_
    rw [Bool.eq_iff_iff]
    simp only [keptName, hfind, Bool.and_eq_true, decide_eq_true_eq, beq_iff_eq, true_and,
      Option.some.injEq]
    constructor
    · rintro ⟨hb, _⟩
      exact hb
    · intro hb
      exact ⟨hb, Or.inr hb.symm⟩
  rw [List.countP_eq_length_filter, hfilter]
  rfl

theorem FilterRtpExtensions_lone_bwe_witness :
    StdSortSpec insertionSortBy ∧
    ValidateRtpExtensions [⟨"video-orientation", 7⟩, ⟨"timestamp-offset", 4⟩,
      ⟨"absolute-send-time", 1⟩, ⟨"audio-level", 9⟩] = some true ∧
    (FilterRtpExtensions insertionSortBy [⟨"video-orientation", 7⟩, ⟨"timestamp-offset", 4⟩,
      ⟨"absolute-send-time", 1⟩, ⟨"audio-level", 9⟩] (fun u => u != "absolute-send-time")
      true).countP (fun e => e.name == "timestamp-offset") = 1 :=
  ⟨insertionSortBy_spec, by decide,
    FilterRtpExtensions_lone_bwe insertionSortBy insertionSortBy_spec _ _ (by decide)
      "timestamp-offset" (by decide)⟩

/-- C14: for every list accepted by `ValidateRtpExtensions` and every supported-predicate, with
`filter_redundant_extensions = false` the result of `FilterRtpExtensions`, read back as
requests, is a permutation of the input entries whose uri is supported; its length is the
number of supported entries. -/
theorem FilterRtpExtensions_false_perm (sort : StdSort) (hs : StdSortSpec sort)
    (extensions : List RtpHeaderExtension) (supported : String → Bool)
    (_hv : ValidateRtpExtensions extensions = some true) :
    ((FilterRtpExtensions sort extensions supported false).map toRequest).Perm
        (extensions.filter (fun e => supported e.uri)) ∧
      (FilterRtpExtensions sort extensions supported false).length
        = extensions.countP (fun e => supported e.uri) := by
  have hp : (FilterRtpExtensions sort extensions supported false).Perm
      (supportedExtensions extensions supported) := (hs.forSortComp _).1
  constructor
  · rw [← supportedExtensions_map_toRequest]
    exact hp.map _
  · rw [hp.length_eq, List.countP_eq_length_filter, ← supportedExtensions_map_toRequest,
      List.length_map]

theorem FilterRtpExtensions_false_perm_witness :
    StdSortSpec insertionSortBy ∧
    ValidateRtpExtensions [⟨"video-orientation", 7⟩, ⟨"timestamp-offset", 4⟩,
      ⟨"video-orientation", 1⟩, ⟨"audio-level", 9⟩] = some true ∧
    ((FilterRtpExtensions insertionSortBy [⟨"video-orientation", 7⟩, ⟨"timestamp-offset", 4⟩,
        ⟨"video-orientation", 1⟩, ⟨"audio-level", 9⟩] (fun u => u != "audio-level")
        false).map toRequest).Perm
        (List.filter (fun e => (fun u => u != "audio-level") e.uri)
          [⟨"video-orientation", 7⟩, ⟨"timestamp-offset", 4⟩, ⟨"video-orientation", 1⟩,
            (⟨"audio-level", 9⟩ : RtpHeaderExtension)]) ∧
      (FilterRtpExtensions insertionSortBy [⟨"video-orientation", 7⟩, ⟨"timestamp-offset", 4⟩,
        ⟨"video-orientation", 1⟩, ⟨"audio-level", 9⟩] (fun u => u != "audio-level")
        false).length
        = List.countP (fun e => (fun u => u != "audio-level") e.uri)
          [⟨"video-orientation", 7⟩, ⟨"timestamp-offset", 4⟩, ⟨"video-orientation", 1⟩,
            (⟨"audio-level", 9⟩ : RtpHeaderExtension)] :=
  ⟨insertionSortBy_spec, by decide,
    FilterRtpExtensions_false_perm insertionSortBy insertionSortBy_spec _ _ (by decide)⟩

/-- C15: for every list accepted by `ValidateRtpExtensions` and every supported-predicate, the
result of `FilterRtpExtensions` with `filter_redundant_extensions = true` is a subsequence
(entries deleted, order kept) of the result with `filter_redundant_extensions = false`. -/
theorem FilterRtpExtensions_true_sublist_false (sort : StdSort)
    (extensions : List RtpHeaderExtension) (supported : String → Bool)
    (_hv : ValidateRtpExtensions extensions = some true) :
    (FilterRtpExtensions sort extensions supported true).Sublist
      (FilterRtpExtensions sort extensions supported false) :=
  FilterRtpExtensions_sublist_sort sort extensions supported true

theorem FilterRtpExtensions_true_sublist_false_witness :
    ValidateRtpExtensions [⟨"video-orientation", 7⟩, ⟨"timestamp-offset", 4⟩,
      ⟨"absolute-send-time", 1⟩, ⟨"video-orientation", 9⟩] = some true ∧
    (FilterRtpExtensions insertionSortBy [⟨"video-orientation", 7⟩, ⟨"timestamp-offset", 4⟩,
      ⟨"absolute-send-time", 1⟩, ⟨"video-orientation", 9⟩] (fun _ => true) true).Sublist
      (FilterRtpExtensions insertionSortBy [⟨"video-orientation", 7⟩, ⟨"timestamp-offset", 4⟩,
        ⟨"absolute-send-time", 1⟩, ⟨"video-orientation", 9⟩] (fun _ => true) false) :=
  ⟨by decide, FilterRtpExtensions_true_sublist_false insertionSortBy _ _ (by decide)⟩

/-- C16: a list accepted by `ValidateRtpExtensions` has at most 14 entries, and so has the
result of `FilterRtpExtensions` on it, for every supported-predicate and both flag values. -/
theorem FilterRtpExtensions_length_le_14 (sort : StdSort) (hs : StdSortSpec sort)
    (extensions : List RtpHeaderExtension) (supported : String → Bool)
    (filter_redundant_extensions : Bool)
    (hv : ValidateRtpExtensions extensions = some true) :
    extensions.length ≤ 14 ∧
      (FilterRtpExtensions sort extensions supported filter_redundant_extensions).length
        ≤ 14 :=
  ⟨length_le_of_valid hv,
    (FilterRtpExtensions_length_le hs extensions supported _).trans (length_le_of_valid hv)⟩

theorem FilterRtpExtensions_length_le_14_witness :
    StdSortSpec insertionSortBy ∧
    ValidateRtpExtensions [⟨"a", 1⟩, ⟨"b", 2⟩, ⟨"c", 3⟩, ⟨"d", 4⟩, ⟨"e", 5⟩, ⟨"f", 6⟩,
      ⟨"g", 7⟩, ⟨"h", 8⟩, ⟨"i", 9⟩, ⟨"j", 10⟩, ⟨"k", 11⟩, ⟨"l", 12⟩, ⟨"m", 13⟩,
      ⟨"n", 14⟩] = some true ∧
    (List.length [⟨"a", 1⟩, ⟨"b", 2⟩, ⟨"c", 3⟩, ⟨"d", 4⟩, ⟨"e", 5⟩, ⟨"f", 6⟩,
      ⟨"g", 7⟩, ⟨"h", 8⟩, ⟨"i", 9⟩, ⟨"j", 10⟩, ⟨"k", 11⟩, ⟨"l", 12⟩, ⟨"m", 13⟩,
      (⟨"n", 14⟩ : RtpHeaderExtension)] ≤ 14 ∧
      (FilterRtpExtensions insertionSortBy [⟨"a", 1⟩, ⟨"b", 2⟩, ⟨"c", 3⟩, ⟨"d", 4⟩, ⟨"e", 5⟩,
        ⟨"f", 6⟩, ⟨"g", 7⟩, ⟨"h", 8⟩, ⟨"i", 9⟩, ⟨"j", 10⟩, ⟨"k", 11⟩, ⟨"l", 12⟩, ⟨"m", 13⟩,
        ⟨"n", 14⟩] (fun _ => true) false).length ≤ 14) :=
  ⟨insertionSortBy_spec, by decide,
    FilterRtpExtensions_length_le_14 insertionSortBy insertionSortBy_spec _ _ _ (by decide)⟩

theorem arrayRead_eq_none_iff (id_used : List Bool) (hu : id_used.length = 14) (i : Int) :
    arrayRead id_used i = none ↔ ¬ (0 ≤ i ∧ i ≤ 13) := by
  unfold arrayRead
  split_ifs with h0
  · rw [List.getElem?_eq_none_iff]
    omega
  · constructor
    · intro _ h
      exact h0 h.1
    · intro _
      rfl

theorem arrayWrite_eq_none_iff (id_used : List Bool) (hu : id_used.length = 14) (i : Int)
    (v : Bool) : arrayWrite id_used i v = none ↔ ¬ (0 ≤ i ∧ i ≤ 13) := by
  unfold arrayWrite
  split_ifs with h0
  · constructor
    · intro h
      cases h
    · intro h
      exact absurd (show 0 ≤ i ∧ i ≤ 13 by omega) h
  · constructor
    · intro _ h
      exact h0 (by omega)
    · intro _
      rfl

/-- C17: `ValidateRtpExtensions` never reads or writes `id_used` outside its 14 slots. In the
model an access outside the slots 0..13 is the only way to get `none`, and the function
returns a boolean for every input list, whatever the ids (zero, negative, 15 or more); the same
holds for the loop started from any table of 14 slots. -/
theorem ValidateRtpExtensions_in_bounds (extensions : List RtpHeaderExtension) :
    (ValidateRtpExtensions extensions = some true ∨
      ValidateRtpExtensions extensions = some false) ∧
    (∀ id_used : List Bool, id_used.length = 14 →
      validateLoop id_used extensions ≠ none) ∧
    (∀ (id_used : List Bool) (i : Int) (v : Bool), id_used.length = 14 →
      (arrayRead id_used i = none ↔ ¬ (0 ≤ i ∧ i ≤ 13)) ∧
      (arrayWrite id_used i v = none ↔ ¬ (0 ≤ i ∧ i ≤ 13))) := by
  refine ⟨?_, fun u hu => validateLoop_ne_none extensions u hu,
    fun u i v hu => ⟨arrayRead_eq_none_iff u hu i, arrayWrite_eq_none_iff u hu i v⟩⟩
  have h := ValidateRtpExtensions_ne_none extensions
  rcases hv : ValidateRtpExtensions extensions with _ | _ | _
  · exact absurd hv h
  · exact Or.inr rfl
  · exact Or.inl rfl

theorem ValidateRtpExtensions_in_bounds_witness :
    ValidateRtpExtensions [⟨"X", 1⟩, ⟨"Y", 0⟩] = some false ∧
    ValidateRtpExtensions [⟨"X", 14⟩, ⟨"Y", -3⟩] = some false ∧
    ValidateRtpExtensions [⟨"X", 15⟩] = some false ∧
    validateLoop (List.replicate 14 true) [⟨"X", 14⟩, ⟨"Y", 1⟩] ≠ none ∧
    (arrayRead (List.replicate 14 false) 14 = none ↔ ¬ ((0 : Int) ≤ 14 ∧ (14 : Int) ≤ 13)) :=
  ⟨((ValidateRtpExtensions_in_bounds [⟨"X", 1⟩, ⟨"Y", 0⟩]).1.resolve_left (by decide)),
    ((ValidateRtpExtensions_in_bounds [⟨"X", 14⟩, ⟨"Y", -3⟩]).1.resolve_left (by decide)),
    ((ValidateRtpExtensions_in_bounds [⟨"X", 15⟩]).1.resolve_left (by decide)),
    (ValidateRtpExtensions_in_bounds [⟨"X", 14⟩, ⟨"Y", 1⟩]).2.1 _ (by decide),
    ((ValidateRtpExtensions_in_bounds []).2.2 _ 14 true (by decide)).1⟩

/-- C18: for every list with pairwise distinct names and every priority list without
repetition, `DiscardRedundantExtensions` returns the list restricted, in its order, to the
entries whose name is not in the priority list or is the first name of the priority list that
occurs in the list; at most one entry named in the priority list remains, and the list is
returned unchanged when at most one of its entries is named in the priority list. -/
theorem DiscardRedundantExtensions_spec (extensions : List RtpExtension)
    (extensions_decreasing_prio : List String)
    (hl : (extensions.map (fun e => e.name)).Nodup) (hp : extensions_decreasing_prio.Nodup) :
    DiscardRedundantExtensions extensions extensions_decreasing_prio
        = extensions.filter (fun e => decide (e.name ∉ extensions_decreasing_prio ∨
            extensions_decreasing_prio.find? (hasName extensions) = some e.name)) ∧
    (DiscardRedundantExtensions extensions extensions_decreasing_prio).countP
        (fun e => decide (e.name ∈ extensions_decreasing_prio)) ≤ 1 ∧
    (extensions.countP (fun e => decide (e.name ∈ extensions_decreasing_prio)) ≤ 1 →
      DiscardRedundantExtensions extensions extensions_decreasing_prio = extensions) := by
  have heq : DiscardRedundantExtensions extensions extensions_decreasing_prio
      = extensions.filter (fun e => decide (e.name ∉ extensions_decreasing_prio ∨
          extensions_decreasing_prio.find? (hasName extensions) = some e.name)) := by
    rw [DiscardRedundantExtensions_eq_filter _ _ hl hp]
    refine List.filter_congr fun e _ => ?_
    simp [keptName]
  refine ⟨heq, ?_, ?_⟩
  · rw [heq, List.countP_eq_length_filter, List.filter_filter]
    rcases hfind : extensions_decreasing_prio.find? (hasName extensions) with _ | top
    · have hnil : extensions.filter (fun e => decide (e.name ∈ extensions_decreasing_prio) &&
          decide (e.name ∉ extensions_decreasing_prio ∨ none = some e.name)) = [] := by
        rw [List.filter_eq_nil_iff]
        intro e _
        simp
      rw [hnil]
      exact Nat.zero_le 1
    · have htop : top ∈ extensions_decreasing_prio := List.mem_of_find?_eq_some hfind
      have hcongr : extensions.filter (fun e => decide (e.name ∈ extensions_decreasing_prio) &&
          decide (e.name ∉ extensions_decreasing_prio ∨ some top = some e.name))
          = extensions.filter (fun e => e.name == top) := by
        refine List.filter_congr fun e _ => ?_
        rw [Bool.eq_iff_iff]
        simp only [Bool.and_eq_true, decide_eq_true_eq, Option.some.injEq, beq_iff_eq]
        constructor
        · rintro ⟨hb, h | h⟩
          · exact absurd hb h
          · exact h.symm
        · intro h
          exact ⟨h ▸ htop, Or.inr h.symm⟩
      rw [hcongr]
      exact filter_name_length_le_one top extensions hl
  · intro hone
    rw [heq, List.filter_eq_self]
    intro e he
    rw [decide_eq_true_eq]
    by_cases hmem : e.name ∈ extensions_decreasing_prio
    · right
      have hhas : hasName extensions e.name = true := by
        rw [hasName, List.any_eq_true]
        exact ⟨e, he, by simp⟩
      have hsome : (extensions_decreasing_prio.find? (hasName extensions)).isSome = true := by
        rw [List.find?_isSome]
        exact ⟨e.name, hmem, hhas⟩
      obtain ⟨top, htop⟩ := Option.isSome_iff_exists.1 hsome
      have htop_mem : top ∈ extensions_decreasing_prio := List.mem_of_find?_eq_some htop
      have htop_has : hasName extensions top = true := List.find?_some htop
      rw [hasName, List.any_eq_true] at htop_has
      obtain ⟨e', he', hname⟩ := htop_has
      have hname : e'.name = top := by simpa using hname
      have h1 : e ∈ extensions.filter
          (fun e => decide (e.name ∈ extensions_decreasing_prio)) :=
        List.mem_filter.2 ⟨he, by simpa using hmem⟩
      have h2 : e' ∈ extensions.filter
          (fun e => decide (e.name ∈ extensions_decreasing_prio)) :=
        List.mem_filter.2 ⟨he', by simpa [hname] using htop_mem⟩
      rw [List.countP_eq_length_filter] at hone
      have hee : e = e' := by
        rcases hfl : extensions.filter
            (fun e => decide (e.name ∈ extensions_decreasing_prio)) with _ | ⟨z, _ | ⟨z', t⟩⟩
        · rw [hfl] at h1
          cases h1
        · rw [hfl] at h1 h2
          rw [List.mem_singleton.1 h1, List.mem_singleton.1 h2]
        · rw [hfl] at hone
          simp at hone
      rw [htop, hee, hname]
    · exact Or.inl hmem

theorem DiscardRedundantExtensions_spec_witness :
    (List.map (fun e => e.name) [(⟨"a", 1⟩ : RtpExtension), ⟨"c", 2⟩, ⟨"b", 3⟩,
      ⟨"d", 4⟩]).Nodup ∧
    ["b", "x", "c"].Nodup ∧
    DiscardRedundantExtensions [⟨"a", 1⟩, ⟨"c", 2⟩, ⟨"b", 3⟩, ⟨"d", 4⟩] ["b", "x", "c"]
      = [⟨"a", 1⟩, ⟨"b", 3⟩, ⟨"d", 4⟩] ∧
    (DiscardRedundantExtensions [⟨"a", 1⟩, ⟨"c", 2⟩, ⟨"b", 3⟩, ⟨"d", 4⟩]
      ["b", "x", "c"]).countP (fun e => decide (e.name ∈ ["b", "x", "c"])) ≤ 1 ∧
    DiscardRedundantExtensions [⟨"a", 1⟩, ⟨"c", 2⟩, ⟨"d", 4⟩] ["b", "x", "c"]
      = [⟨"a", 1⟩, ⟨"c", 2⟩, ⟨"d", 4⟩] :=
  ⟨by decide, by decide,
    (DiscardRedundantExtensions_spec [⟨"a", 1⟩, ⟨"c", 2⟩, ⟨"b", 3⟩, ⟨"d", 4⟩] ["b", "x", "c"]
      (by decide) (by decide)).1.trans (by decide),
    (DiscardRedundantExtensions_spec [⟨"a", 1⟩, ⟨"c", 2⟩, ⟨"b", 3⟩, ⟨"d", 4⟩] ["b", "x", "c"]
      (by decide) (by decide)).2.1,
    (DiscardRedundantExtensions_spec [⟨"a", 1⟩, ⟨"c", 2⟩, ⟨"d", 4⟩] ["b", "x", "c"]
      (by decide) (by decide)).2.2 (by decide)⟩

end cricket

namespace webrtc.internal

/-! ## Padding -/

/-- C11: `GetPaddingNeededBps` returns `max(0, min_transmit_bitrate_bps - target)` for the
target of the most recent `OnBitrateUpdated` and the active encoder settings, whatever the
state before and whatever earlier updates there were; after `OnBitrateUpdated(500000, 0, 20)` it
returns 100000 when the minimum is 600000 and 0 when the minimum is 400000. -/
theorem GetPaddingNeededBps_spec (s : VideoSendStream) (bitrate_bps fraction_loss : Nat)
    (rtt : Int) :
    (s.OnBitrateUpdated bitrate_bps fraction_loss rtt).GetPaddingNeededBps
        = max 0 (s.active.min_transmit_bitrate_bps - bitrate_bps) ∧
    (∀ (b₀ f₀ : Nat) (r₀ : Int),
      ((s.OnBitrateUpdated b₀ f₀ r₀).OnBitrateUpdated bitrate_bps fraction_loss
          rtt).GetPaddingNeededBps
        = max 0 (s.active.min_transmit_bitrate_bps - bitrate_bps)) ∧
    (∀ b : BitrateState,
      (VideoSendStream.OnBitrateUpdated ⟨b, ⟨600000⟩⟩ 500000 0 20).GetPaddingNeededBps
        = 100000) ∧
    (∀ b : BitrateState,
      (VideoSendStream.OnBitrateUpdated ⟨b, ⟨400000⟩⟩ 500000 0 20).GetPaddingNeededBps = 0) :=
  ⟨rfl, fun _ _ _ => rfl,
    fun _ => show max (0 : Int) (600000 - ((500000 : Nat) : Int)) = 100000 by decide,
    fun _ => show max (0 : Int) (400000 - ((500000 : Nat) : Int)) = 0 by decide⟩

end webrtc.internal
